import Mathlib

/-!
# Verification of the SureBet arbitrage core

A shallow embedding, over `ℚ`, of the odds-parsing and arbitrage-detection
core of the SureBetProject repository:

* `compute_stakes`, `check_surebet`, `choose_total_stake`, `analyze_surebets`
  from `enhanced_football_analyzer.py`;
* `is_surebet_two_way`, `allocate_stakes`, `detect_two_way_surebets`
  from `arbitrage_nfl.py`;
* the AUTO-snapshot parser `_parse_auto_snapshot_lines`, the section parser
  branch of `parse_file`, and `parse_flat_blocks` from
  `enhanced_football_analyzer.py`;
* the match segmenter `parse_file` from `arbitrage_football.py`.

Python floats are modelled as exact rationals, Python `round` as
round-half-to-even, Python `int(...)` as truncation toward zero.
-/

namespace SureBet

/-- Python `int(q)`: truncation toward zero. -/
def pyint (q : ℚ) : ℤ := if 0 ≤ q then ⌊q⌋ else ⌈q⌉

/-- Python `round(q)` to an integer: round-half-to-even (banker's rounding). -/
def pyRoundInt (q : ℚ) : ℤ :=
  if q - ⌊q⌋ < 1/2 then ⌊q⌋
  else if 1/2 < q - ⌊q⌋ then ⌊q⌋ + 1
  else if Even ⌊q⌋ then ⌊q⌋ else ⌊q⌋ + 1

/-- Python `round(q, 2)`: round to two decimal places, ties to even. -/
def round2 (q : ℚ) : ℚ := (pyRoundInt (100 * q) : ℚ) / 100

/-- `sum(1/o for o in xs)`. -/
def invSum (xs : List ℚ) : ℚ := (xs.map (fun o => 1 / o)).sum

/-- Python `min` over a list (callers only use it on non-empty lists). -/
def pyMin : List ℚ → ℚ
  | [] => 0
  | x :: xs => xs.foldl min x

/-! ## `compute_stakes` (enhanced_football_analyzer.py, lines 27-112) -/

/-- `valid = [(o, b) for o, b in odds if o > 0]` -/
def validOdds (odds : List (ℚ × String)) : List (ℚ × String) :=
  odds.filter (fun ob => 0 < ob.1)

/-- `if round_multiple < 1: round_multiple = 1` -/
def clampRM (rm : ℚ) : ℚ := if rm < 1 then 1 else rm

/-- The theoretical (pre-rounding) allocation: for each valid
`(o, b)`, the entry `[total * (1/o) / inv_sum, o, b]`. -/
def unroundedStakes (valid : List (ℚ × String)) (total : ℚ) :
    List (ℚ × ℚ × String) :=
  valid.map (fun ob =>
    (total * (1 / ob.1) / invSum (valid.map Prod.fst), ob.1, ob.2))

/-- Floor step: `floored = int(stake // rm * rm); if floored <= 0: floored = rm`. -/
def flooredStakes (rm : ℚ) (unrounded : List (ℚ × ℚ × String)) :
    List (ℚ × ℚ × String) :=
  unrounded.map (fun e =>
    (if pyint (⌊e.1 / rm⌋ * rm) ≤ 0 then rm else ((pyint (⌊e.1 / rm⌋ * rm) : ℤ) : ℚ),
     e.2.1, e.2.2))

/-- `rounded.sort(key=lambda x: x[0] * x[1])` — a stable ascending sort by
projected return, modelled by insertion sort (equal to Python's stable sort). -/
def sortByReturn (l : List (ℚ × ℚ × String)) : List (ℚ × ℚ × String) :=
  l.insertionSort (fun a b => a.1 * a.2.1 ≤ b.1 * b.2.1)

/-- The greedy redistribution loop:
`while diff >= round_multiple and rounded: sort; rounded[0][0] += rm; diff -= rm`.
The fuel argument bounds the iteration count; `redistFuel` below supplies
enough fuel for the loop condition to fail at exit. -/
def redistribute (rm : ℚ) : ℕ → List (ℚ × ℚ × String) → ℚ →
    List (ℚ × ℚ × String) × ℚ
  | 0, rounded, diff => (rounded, diff)
  | fuel + 1, rounded, diff =>
    if rm ≤ diff ∧ rounded ≠ [] then
      match sortByReturn rounded with
      | [] => (rounded, diff)
      | e :: rest => redistribute rm fuel ((e.1 + rm, e.2.1, e.2.2) :: rest) (diff - rm)
    else (rounded, diff)

/-- Sufficient fuel for `redistribute`: the loop body runs at most
`⌊diff / rm⌋` times since each iteration subtracts `rm` from `diff`. -/
def redistFuel (rm diff : ℚ) : ℕ := (⌊diff / rm⌋).toNat

/-- The post-rounding allocation produced inside `compute_stakes`:
floor each theoretical stake, then greedily redistribute the shortfall. -/
def roundedAlloc (odds : List (ℚ × String)) (total rm0 : ℚ) :
    List (ℚ × ℚ × String) :=
  let valid := validOdds odds
  let rm := clampRM rm0
  let rounded := flooredStakes rm (unroundedStakes valid total)
  let diff := total - (rounded.map (fun e => e.1)).sum
  (redistribute rm (redistFuel rm diff) rounded diff).1

/-- `compute_stakes(odds, total_stake, round_multiple)`: returns
`(stakes_list, profit_abs_actual, effective_total, profit_pct_actual,
profit_abs_theoretical, profit_pct_theoretical)`. -/
def compute_stakes (odds : List (ℚ × String)) (total rm0 : ℚ) :
    List (ℚ × ℚ × String) × ℚ × ℚ × ℚ × ℚ × ℚ :=
  let valid := validOdds odds
  if valid.length < 2 then ([], 0, 0, 0, 0, 0)
  else
    let inv := invSum (valid.map Prod.fst)
    if 1 ≤ inv then ([], 0, 0, 0, 0, 0)
    else
      let theoAbs := total / inv - total
      let theoPct := (1 / inv - 1) * 100
      let rounded2 := roundedAlloc odds total rm0
      let effTotal := (rounded2.map (fun e => e.1)).sum
      let minReturn := pyMin (rounded2.map (fun e => e.1 * e.2.1))
      let profitAbs := minReturn - effTotal
      let profitPct := if 0 < effTotal then profitAbs / effTotal * 100 else 0
      if profitAbs ≤ 0 then
        ([], 0, effTotal, 0, round2 theoAbs, round2 theoPct)
      else
        (rounded2.map (fun e => (e.1, e.2.1, e.2.2)),
         round2 profitAbs, effTotal, round2 profitPct,
         round2 theoAbs, round2 theoPct)

/-! ## `check_surebet` (enhanced_football_analyzer.py, lines 126-137) -/

/-- `clean = [o for o, _ in odds if 0.5 <= o <= 69]` -/
def cleanOdds (odds : List (ℚ × String)) : List ℚ :=
  (odds.map Prod.fst).filter (fun o => 1/2 ≤ o ∧ o ≤ 69)

/-- `check_surebet(odds)`: the football analyzer's surebet test. It filters
quotes to the 0.5–69 range, requires at least two survivors, and when
`inv_sum < 1` reports `round((1 - inv_sum) * 100, 2)`. -/
def check_surebet (odds : List (ℚ × String)) : Option ℚ :=
  let clean := cleanOdds odds
  if clean.length < 2 then none
  else if invSum clean < 1 then some (round2 ((1 - invSum clean) * 100))
  else none

/-! ## `choose_total_stake` and `analyze_surebets`
(enhanced_football_analyzer.py, lines 115-124 and 2029-2128) -/

/-- Python whitespace characters recognised by `str.strip()`. -/
def isPySpace (c : Char) : Bool :=
  c = ' ' ∨ c = '\t' ∨ c = '\n' ∨ c = '\r' ∨ c = '\x0b' ∨ c = '\x0c'

/-- Python `str.strip()` on a character list. -/
def pystrip (cs : List Char) : List Char :=
  ((cs.dropWhile isPySpace).reverse.dropWhile isPySpace).reverse

/-- `choose_total_stake(min_total, max_total, explicit)`. -/
def choose_total_stake (mn mx0 : ℤ) (explicit : Option ℚ) : ℚ :=
  match explicit with
  | some e => e
  | none =>
    let mx := if mx0 < mn then mn else mx0
    let mid := Int.fdiv (mn + mx) 2
    let mid2 := pyRoundInt ((mid : ℚ) / 100) * 100
    ((max mn (min mid2 mx) : ℤ) : ℚ)

/-- Python `x or default` for an optional integer argument (`0` is falsy). -/
def orIntDefault (x : Option ℤ) (d : ℤ) : ℤ :=
  match x with
  | none => d
  | some v => if v = 0 then d else v

/-- A parsed match record: team string plus a label-keyed odds map,
modelled as an association list in insertion order. -/
structure PyMatch where
  teams : String
  odds : List (String × ℚ × String)
deriving Repr, DecidableEq

/-- Dictionary lookup `match["odds"][label]`. -/
def lookupOdds (odds : List (String × ℚ × String)) (lbl : String) :
    Option (ℚ × String) :=
  (odds.find? (fun e => e.1 == lbl)).map (fun e => e.2)

/-- `EXCLUDED_BOOKMAKERS = set()` (empty in the source). -/
def EXCLUDED_BOOKMAKERS : List String := []

/-- `_norm_book`: lowercase, strip, remove dots and spaces. -/
def normBook (b : String) : String :=
  ⟨(pystrip (b.data.map Char.toLower)).filter (fun c => ¬(c = '.' ∨ c = ' '))⟩

/-- One emitted surebet record of `analyze_surebets`. -/
structure Surebet where
  matchTeams : String
  mtype : String
  profit : ℚ
  gOdds : List (String × ℚ × String)
  stakes : List (ℚ × ℚ × String)
  absProfit : ℚ
  profitActual : ℚ
  absProfitTheoretical : ℚ
  profitTheoretical : ℚ
  totalStake : ℚ
  category : String
deriving Repr, DecidableEq

/-- One outcome-group block of `analyze_surebets` (the 1X2, O/U and Winner
blocks are three instances of this shape). -/
def surebetGroup (m : PyMatch) (labels : List String) (tname : String)
    (minProfit totalTarget stakeRound : ℚ) : List Surebet :=
  if labels.all (fun l => (lookupOdds m.odds l).isSome) then
    let gOdds := labels.filterMap
      (fun l => (lookupOdds m.odds l).map (fun q => (l, q.1, q.2)))
    let quotes := gOdds.map Prod.snd
    let hasOnline := quotes.any
      (fun q => (EXCLUDED_BOOKMAKERS.map normBook).contains (normBook q.2))
    match check_surebet quotes with
    | none => []
    | some p =>
      if minProfit ≤ p ∧ 0 < p then
        let r := compute_stakes quotes totalTarget stakeRound
        if r.1 ≠ [] ∧ minProfit ≤ r.2.2.2.1 then
          [{ matchTeams := m.teams, mtype := tname, profit := p, gOdds := gOdds,
             stakes := r.1, absProfit := r.2.1, profitActual := r.2.2.2.1,
             absProfitTheoretical := r.2.2.2.2.1,
             profitTheoretical := r.2.2.2.2.2,
             totalStake := r.2.2.1,
             category := if hasOnline then "online" else "local" }]
        else []
      else []
  else []

/-- `analyze_surebets(matches, min_profit, stake_min, stake_max, stake_total,
stake_round)`. -/
def analyze_surebets (ms : List PyMatch) (minProfit : ℚ)
    (stakeMin stakeMax : Option ℤ) (stakeTotal : Option ℚ)
    (stakeRound : ℚ) : List Surebet :=
  let totalTarget := choose_total_stake (orIntDefault stakeMin 10000)
    (orIntDefault stakeMax 15000) stakeTotal
  ms.flatMap (fun m =>
    if m.odds.length < 2 then []
    else
      surebetGroup m ["Home", "Draw", "Away"] "1X2" minProfit totalTarget stakeRound
        ++ surebetGroup m ["0-2", "3+"] "0-2 / 3+" minProfit totalTarget stakeRound
        ++ surebetGroup m ["Winner1", "Winner2"] "Winner" minProfit totalTarget stakeRound)

/-! ## NFL two-way detector (arbitrage_nfl.py, lines 33-93) -/

/-- `is_surebet_two_way(o1, o2) -> (is_surebet, margin_pct, roi_pct)`. -/
def is_surebet_two_way (o1 o2 : ℚ) : Bool × ℚ × ℚ :=
  let inv := 1/o1 + 1/o2
  if inv < 1 then (true, round2 ((1 - inv) * 100), round2 ((1/inv - 1) * 100))
  else (false, 0, 0)

/-- `allocate_stakes(o1, o2, total)`. -/
def allocate_stakes (o1 o2 total : ℚ) : ℚ × ℚ :=
  let inv := 1/o1 + 1/o2
  (round2 ((1/o1)/inv * total), round2 ((1/o2)/inv * total))

/-- One record emitted by `detect_two_way_surebets`. -/
structure NflSurebet where
  matchTeams : String
  marginPct : ℚ
  roiPct : ℚ
  homeOdd : ℚ
  homeBook : String
  awayOdd : ℚ
  awayBook : String
  stakeHome : ℚ
  stakeAway : ℚ
deriving Repr, DecidableEq

/-- `detect_two_way_surebets(matches, min_profit, total_stake)`: the range
check `VALID_ODDS_RANGE = (0.5, 69.0)` excludes the whole match when either
quote fails; the final sort is by descending ROI (stable). -/
def detect_two_way_surebets (ms : List PyMatch) (minProfit total : ℚ) :
    List NflSurebet :=
  (ms.filterMap (fun m =>
    match lookupOdds m.odds "Home", lookupOdds m.odds "Away" with
    | some (o1, b1), some (o2, b2) =>
      if (1/2 ≤ o1 ∧ o1 ≤ 69) ∧ (1/2 ≤ o2 ∧ o2 ≤ 69) then
        let r := is_surebet_two_way o1 o2
        if r.1 ∧ ¬(r.2.2 < minProfit) then
          let s := allocate_stakes o1 o2 total
          some ⟨m.teams, r.2.1, r.2.2, o1, b1, o2, b2, s.1, s.2⟩
        else none
      else none
    | _, _ => none)).insertionSort (fun a b => b.roiPct ≤ a.roiPct)

/-! ## Regex models shared by the parsers -/

/-- Digit-run value: `foldl (fun a c => 10*a + digit c) 0`. -/
def digitsVal (ds : List Char) : ℕ :=
  ds.foldl (fun a c => a * 10 + (c.toNat - 48)) 0

/-- The rational denoted by `<int digits>.<frac digits>`. -/
def ratOfDigits (ip fp : List Char) : ℚ :=
  (digitsVal ip : ℚ) + (digitsVal fp : ℚ) / (10 ^ fp.length)

/-- `re.search(r':\d{2}$', s)`: the last three characters are `:` then two
digits. -/
def dtSearch (s : String) : Bool :=
  match s.data.reverse with
  | a :: b :: c :: _ => a.isDigit && b.isDigit && c = ':'
  | _ => false

/-- `re.match(r'^-+$', s)`: a non-empty run of hyphens. -/
def sepMatch (s : String) : Bool :=
  s.data ≠ [] && s.data.all (· = '-')

/-- `s.startswith('+')`. -/
def startsWithPlus (s : String) : Bool :=
  match s.data with
  | '+' :: _ => true
  | _ => false

/-- Full match of `^\d+(?:\.\d+)?$`, returning the denoted value. -/
def pureNum? (cs : List Char) : Option ℚ :=
  let ds := cs.takeWhile Char.isDigit
  if ds = [] then none
  else
    match cs.dropWhile Char.isDigit with
    | [] => some (digitsVal ds : ℚ)
    | '.' :: r2 =>
      if r2.takeWhile Char.isDigit ≠ [] ∧ r2.dropWhile Char.isDigit = [] then
        some (ratOfDigits ds (r2.takeWhile Char.isDigit))
      else none
    | _ => none

/-- `re.match(r'^(\d+(?:\.\d+)?)(C.*)$', s)` for a character class `C`
(`[A-Za-z0-9]` or `[A-Za-z]`): the greedy number with Python's backtracking
order — shorten the fractional digit run first, then drop the fraction, then
shorten the integer digit run — until the remainder starts with a `C`
character. Returns the numeric value of group 1 and group 2's characters. -/
def regexNumG2 (isG2 : Char → Bool) (cs : List Char) : Option (ℚ × List Char) :=
  let g2at : ℕ → Bool := fun q =>
    match cs.drop q with
    | g :: _ => isG2 g
    | [] => false
  let cands : List (ℕ × Option ℕ) :=
    ((List.range (cs.takeWhile Char.isDigit).length).reverse.map (· + 1)).flatMap
      (fun ilen =>
        let fopts : List (Option ℕ) :=
          match cs.drop ilen with
          | '.' :: r2 =>
            ((List.range ((r2.takeWhile Char.isDigit).length)).reverse.map
              (· + 1)).map some ++ [none]
          | _ => [none]
        fopts.map (fun fo => (ilen, fo)))
  match cands.find? (fun c =>
      g2at (c.1 + (match c.2 with | some f => 1 + f | none => 0))) with
  | none => none
  | some (ilen, fo) =>
    let q := ilen + (match fo with | some f => 1 + f | none => 0)
    let fdigits :=
      match fo with
      | some f => (cs.drop (ilen + 1)).take f
      | none => ([] : List Char)
    some (ratOfDigits (cs.take ilen) fdigits, cs.drop q)

/-- `[A-Za-z0-9]`. -/
def isAlnumAscii (c : Char) : Bool := c.isAlpha || c.isDigit

/-! ## `_parse_auto_snapshot_lines` (enhanced_football_analyzer.py, 140-213) -/

/-- Market label order of the AUTO snapshot parsers. -/
def snapshotOrder : List String := ["Home", "Draw", "Away", "0-2", "3+", "GG", "GG3+"]

/-- Per-block scanning state: market index, odds map, and whether the
current market already captured a value. -/
structure AutoState where
  marketIdx : ℕ
  oddsMap : List (String × ℚ × String)
  haveInMarket : Bool
deriving Repr, DecidableEq

/-- One iteration of the block loop of `_parse_auto_snapshot_lines`:
separator lines advance the market when a value is pending; otherwise try
`<number><bookie>` (range-gated to `[0.5, 700]`), then a pure number with
placeholder bookmaker `AUTO` (same gate). -/
def autoBlockStep (st : AutoState) (bl : String) : AutoState :=
  if snapshotOrder.length ≤ st.marketIdx then st
  else if sepMatch bl then
    if st.haveInMarket then ⟨st.marketIdx + 1, st.oddsMap, false⟩ else st
  else
    match
      (if st.haveInMarket then none
       else
         match regexNumG2 isAlnumAscii bl.data with
         | some (v, g2) =>
           if 1/2 ≤ v ∧ v ≤ 700 then some (v, String.mk (pystrip g2)) else none
         | none => none) with
    | some (v, bk) =>
      ⟨st.marketIdx,
       st.oddsMap ++ [(snapshotOrder.getD st.marketIdx "", v, bk)], true⟩
    | none =>
      if ¬st.haveInMarket then
        match pureNum? bl.data with
        | some v =>
          if 1/2 ≤ v ∧ v ≤ 700 then
            ⟨st.marketIdx,
             st.oddsMap ++ [(snapshotOrder.getD st.marketIdx "", v, "AUTO")], true⟩
          else st
        | none => st
      else st

/-- `if i < n and lines[i].startswith('+'): i += 1` — skip the plus-code
line that terminated a block. -/
def skipPlus (after : List String) : List String :=
  match after with
  | a :: t => if startsWithPlus a then t else a :: t
  | [] => []

theorem skipPlus_length_le (after : List String) :
    (skipPlus after).length ≤ after.length := by
  match after with
  | [] => simp [skipPlus]
  | a :: t =>
    simp only [skipPlus]
    split <;> simp

/-- `_parse_auto_snapshot_lines(lines)`: find a time-pattern header with two
following team lines, consume the block up to a `+` code or the next header,
and emit the match when at least 3 odds were captured. -/
def parse_auto_snapshot_lines : List String → List PyMatch
  | [] => []
  | l :: rest =>
    if dtSearch l ∧ 2 ≤ rest.length then
      let t1 := rest.getD 0 ""
      let t2 := rest.getD 1 ""
      let body := rest.drop 2
      let block := body.takeWhile (fun s => ¬(startsWithPlus s || dtSearch s))
      let after := body.dropWhile (fun s => ¬(startsWithPlus s || dtSearch s))
      let st := block.foldl autoBlockStep ⟨0, [], false⟩
      let ms := parse_auto_snapshot_lines (skipPlus after)
      if 3 ≤ st.oddsMap.length then
        ⟨String.mk (pystrip t1.data) ++ " vs " ++ String.mk (pystrip t2.data),
         st.oddsMap⟩ :: ms
      else ms
    else parse_auto_snapshot_lines rest
termination_by ls => ls.length
decreasing_by
  · have h2 := ((rest.drop 2).dropWhile_sublist
      (fun s => ¬(startsWithPlus s || dtSearch s))).length_le
    have h3 := skipPlus_length_le
      ((rest.drop 2).dropWhile (fun s => ¬(startsWithPlus s || dtSearch s)))
    simp only [List.length_drop] at h2
    simp only [List.length_cons]
    omega
  · simp

/-! ## Section parser: the static-file branch of `parse_file`
(enhanced_football_analyzer.py, lines 380-526) -/

/-- Python substring test `needle in hay`. -/
def isInfixB (needle : List Char) : List Char → Bool
  | [] => needle.isEmpty
  | c :: rest => needle.isPrefixOf (c :: rest) || isInfixB needle rest

/-- Python `s.isdigit()` (ASCII digits). -/
def pyIsDigit (s : String) : Bool :=
  s.data ≠ [] && s.data.all Char.isDigit

/-- Python `float(s)` on a decimal string with optional sign, fraction and
exponent; `none` when `float` would raise `ValueError`. -/
def pyFloat? (s : String) : Option ℚ :=
  let cs := pystrip s.data
  let sgn : ℚ := match cs with | '-' :: _ => -1 | _ => 1
  let t : List Char := match cs with
    | '+' :: t => t
    | '-' :: t => t
    | t => t
  let ip := t.takeWhile Char.isDigit
  let r1 := t.dropWhile Char.isDigit
  let cont : ℚ → List Char → Option ℚ := fun v r =>
    match r with
    | [] => some (sgn * v)
    | e :: r2 =>
      if e = 'e' ∨ e = 'E' then
        let esgn : ℤ := match r2 with | '-' :: _ => -1 | _ => 1
        let t2 : List Char := match r2 with
          | '+' :: t2 => t2
          | '-' :: t2 => t2
          | t2 => t2
        let es := t2.takeWhile Char.isDigit
        if es ≠ [] ∧ t2.dropWhile Char.isDigit = [] then
          some (sgn * v * (10 : ℚ) ^ (esgn * (digitsVal es : ℤ)))
        else none
      else none
  match r1 with
  | '.' :: r2 =>
    if ip = [] ∧ r2.takeWhile Char.isDigit = [] then none
    else cont (ratOfDigits ip (r2.takeWhile Char.isDigit)) (r2.dropWhile Char.isDigit)
  | _ => if ip = [] then none else cont (digitsVal ip : ℚ) r1

/-- The mojibake characters appearing literally in the source's team-name
character classes. -/
def teamExtraChars : List Char := ['ƒ', 'å', 'Ü', '≈', 'Ω', '†', 'ê']

/-- First character class of the team-line regex
`^[A-Za-zƒåƒÜ≈Ω≈†ƒê][A-ZaelatƒåƒÜ≈Ω≈†ƒê\s\-\.]+$`. -/
def teamCls1 (c : Char) : Bool := c.isAlpha || teamExtraChars.contains c

/-- Second character class of the team-line regex. -/
def teamCls2 (c : Char) : Bool :=
  ('A' ≤ c && c ≤ 'Z') || ['a', 'e', 'l', 't'].contains c
    || teamExtraChars.contains c || isPySpace c || c = '-' || c = '.'

/-- The team-line regex of the section parser (full match). -/
def teamRe (s : String) : Bool :=
  match s.data with
  | c :: rest => teamCls1 c && rest ≠ [] && rest.all teamCls2
  | [] => false

/-- Junk-line test of the section parser: a boilerplate keyword substring,
a leading `-`/`+`/`*`, or an all-digit line. -/
def junkLine (l : String) : Bool :=
  ["fudbal", "ko≈°arka", "tenis", "promo", "banner", "http"].any
      (fun x => isInfixB x.data (l.data.map Char.toLower))
    || (match l.data with | c :: _ => c = '-' ∨ c = '+' ∨ c = '*' | [] => false)
    || pyIsDigit l

/-- Full match of `^[\+\-]?\d+$`. -/
def plusMinusNum (l : String) : Bool :=
  match l.data with
  | [] => false
  | c :: rest =>
    if c = '+' ∨ c = '-' then rest ≠ [] && rest.all Char.isDigit
    else (c :: rest).all Char.isDigit

/-- Weekday-marker substring test of the section parser's window loop. -/
def weekdaySubSec (l : String) : Bool :=
  ["sre,", "uto,", "ned,", "ƒçet,"].any
    (fun w => isInfixB w.data (l.data.map Char.toLower))

/-- Python `s.endswith(suffix)` on the character list. -/
def pyEndsWith (l suffix : String) : Bool :=
  suffix.data.isSuffixOf l.data

/-- Python `s[:-n]`: drop the last `n` characters. -/
def pyDropRight (l : String) (n : ℕ) : String :=
  ⟨l.data.take (l.data.length - n)⟩

/-- One odds line of the window: handle a `1xBet` / `365rs` suffix by
stripping the last five characters and parsing the rest as a float, else
match `<number><bookmaker starting with a letter>`; each branch stores the
value only when `0.5 <= odd <= 69`. -/
def parseSectionLine (l : String) : Option (ℚ × String) :=
  if pyEndsWith l "1xBet" ∧ (pyFloat? (pyDropRight l 5)).isSome then
    match pyFloat? (pyDropRight l 5) with
    | some v => if 1/2 ≤ v ∧ v ≤ 69 then some (v, "1xBet") else none
    | none => none
  else if pyEndsWith l "365rs" ∧ (pyFloat? (pyDropRight l 5)).isSome then
    match pyFloat? (pyDropRight l 5) with
    | some v => if 1/2 ≤ v ∧ v ≤ 69 then some (v, "365rs") else none
    | none => none
  else
    match regexNumG2 (fun c => c.isAlpha) l.data with
    | some (v, g2) =>
      if 1/2 ≤ v ∧ v ≤ 69 then some (v, String.mk (pystrip g2)) else none
    | none => none

/-- The window loop of the section parser: group odds lines into sections
separated by `----` runs, signed-number codes, weekday markers, or the end
of the 30-line window; a weekday marker stops the window. -/
def collectSections (cur : List (ℚ × String)) (acc : List (List (ℚ × String))) :
    List String → List (List (ℚ × String))
  | [] => acc ++ (if cur ≠ [] then [cur] else [])
  | l0 :: rest =>
    let l : String := ⟨l0.data.map (fun c => if c = ',' then '.' else c)⟩
    if isInfixB "----".data l.data ∨ plusMinusNum l ∨ weekdaySubSec l ∨ rest = [] then
      let acc' := acc ++ (if cur ≠ [] then [cur] else [])
      if weekdaySubSec l then acc'
      else collectSections [] acc' rest
    else if (match l.data with | c :: _ => c == '-' || c == '+' | [] => false) then
      collectSections cur acc rest
    else
      match parseSectionLine l with
      | some e => collectSections (cur ++ [e]) acc rest
      | none => collectSections cur acc rest

/-- `BEST_AGGREGATE = False` (global flag in the source). -/
def bestAggregate : Bool := false

/-- Index of the first maximal odds value (Python `max` keeps the first). -/
def firstMaxIdx : List (ℚ × String) → ℕ
  | [] => 0
  | x :: xs =>
    (xs.foldl (fun (st : ℕ × ℕ × ℚ) e =>
      if st.2.2 < e.1 then (st.1 + 1, st.1, e.1) else (st.1 + 1, st.2.1, st.2.2))
      (1, 0, x.1)).2.1

/-- The section-assembly step of the section parser (lines 476-518):
pick Home/Draw/Away from the first three sections and build the `0-2` /
`3+` candidate lists, tracking Python's identity-based exclusion of already
picked tuples positionally. -/
def assembleOdds (sections : List (List (ℚ × String))) :
    List (String × ℚ × String) :=
  if 4 ≤ sections.length ∧ (sections.take 4).all (fun s => 1 ≤ s.length) then
    let s2 := sections.getD 2 []
    let s3 := sections.getD 3 []
    let pickIdx : List (ℚ × String) → ℕ :=
      fun s => if bestAggregate then firstMaxIdx s else 0
    let pick : List (ℚ × String) → ℚ × String :=
      fun s => s.getD (pickIdx s) (0, "")
    let home := pick (sections.getD 0 [])
    let draw := pick (sections.getD 1 [])
    let away := pick s2
    let c02 : List (ℚ × String) :=
      (if 1 < s2.length then s2.eraseIdx (pickIdx s2) else [])
        ++ (if s3 ≠ [] then [s3.getD 0 (0, "")] else [])
    let k02 := if bestAggregate then firstMaxIdx c02 else 0
    let o02 := c02.getD k02 (0, "")
    let leftLen := if 1 < s2.length then (s2.eraseIdx (pickIdx s2)).length else 0
    let srcFromS3 := leftLen ≤ k02
    let pc1 := if c02 ≠ [] ∧ s3 ≠ [] then (if srcFromS3 then s3.tail else s3) else []
    let pc2 := if pc1 = [] ∧ s3 ≠ [] then [s3.getD 0 (0, "")] else pc1
    let pc3 :=
      if pc2 = [] ∧ 4 < sections.length ∧ sections.getD 4 [] ≠ [] then
        [(sections.getD 4 []).getD 0 (0, "")]
      else pc2
    let o3p := pc3.getD (if bestAggregate then firstMaxIdx pc3 else 0) (0, "")
    [("Home", home.1, home.2), ("Draw", draw.1, draw.2), ("Away", away.1, away.2)]
      ++ (if c02 ≠ [] then [("0-2", o02.1, o02.2)] else [])
      ++ (if pc3 ≠ [] then [("3+", o3p.1, o3p.2)] else [])
  else []

/-- The section parser's outer scan: skip junk lines, detect two consecutive
team lines, collect sections over the following 30-line window, assemble
the odds map and emit the match when at least 4 odds were assigned. -/
def parse_file_sections : List String → List PyMatch
  | [] => []
  | l :: rest =>
    if junkLine l then parse_file_sections rest
    else if teamRe l && (match rest with | l2 :: _ => teamRe l2 | [] => false) then
      let l2 := rest.getD 0 ""
      let window := (rest.drop 1).take 30
      let om := assembleOdds (collectSections [] [] window)
      let ms := parse_file_sections (rest.drop 1)
      if 4 ≤ om.length then ⟨l ++ " vs " ++ l2, om⟩ :: ms else ms
    else parse_file_sections rest
termination_by ls => ls.length
decreasing_by
  all_goals simp [List.length_drop]
  all_goals omega

/-! ## `parse_flat_blocks` (enhanced_football_analyzer.py, lines 529-629) -/

/-- `re.search(r"^(sre|uto|ned|ƒçet|pet|pon|sub),", l, re.IGNORECASE)`. -/
def weekdayPrefix (l : String) : Bool :=
  ["sre,", "uto,", "ned,", "ƒçet,", "pet,", "pon,", "sub,"].any
    (fun w => w.data.isPrefixOf (l.data.map Char.toLower))

/-- `re.search(r"[A-Za-z]", s)`. -/
def hasLetter (s : String) : Bool := s.data.any Char.isAlpha

/-- The odds-collection loop of `parse_flat_blocks`: collect all numeric
lines in `[0.5, 700]` until a `+` code line (consumed) or the next
weekday+time header (not consumed); other lines are skipped. -/
def collectFlat : List String → List ℚ × List String
  | [] => ([], [])
  | x :: xs =>
    if startsWithPlus x then ([], xs)
    else if weekdayPrefix x && (match xs with | y :: _ => dtSearch y | [] => false) then
      ([], x :: xs)
    else
      let r := collectFlat xs
      match pureNum? x.data with
      | some v => (if 1/2 ≤ v ∧ v ≤ 700 then v :: r.1 else r.1, r.2)
      | none => r

theorem collectFlat_snd_le : ∀ xs : List String, (collectFlat xs).2.length ≤ xs.length
  | [] => by simp [collectFlat]
  | x :: xs => by
    have ih := collectFlat_snd_le xs
    simp only [collectFlat]
    split
    · simp
    · split
      · simp
      · split <;> simp <;> omega

/-- `parse_flat_blocks(lines, min_odds_per_match, take_best)`: a weekday
token line, a time line, two team lines, then exactly seven odds lines; the
completed map passes the O/U plausibility gate or the match is dropped. -/
def parse_flat_blocks (minOdds : ℕ) (takeBest : Bool) : List String → List PyMatch
  | [] => []
  | l :: rest =>
    if weekdayPrefix l ∧ 3 ≤ rest.length ∧ dtSearch (rest.getD 0 "") then
      let team1 := rest.getD 1 ""
      let team2 := rest.getD 2 ""
      if ¬(hasLetter team1 ∧ hasLetter team2) then
        parse_flat_blocks minOdds takeBest rest
      else
        let r := collectFlat (rest.drop 3)
        let ms := parse_flat_blocks minOdds takeBest r.2
        if r.1.length = 7 then
          let om := (snapshotOrder.zip r.1).map (fun p => (p.1, p.2, "AUTO"))
          let o02 := r.1.getD 3 0
          let o3p := r.1.getD 4 0
          let ouValid := ¬(|o02 - o3p| < 3/10)
            ∧ (11/10 ≤ o02 ∧ o02 ≤ 10 ∧ 11/10 ≤ o3p ∧ o3p ≤ 10)
          if om.length = 7 ∧ ouValid then
            ⟨team1 ++ " vs " ++ team2, om⟩ :: ms
          else ms
        else ms
    else parse_flat_blocks minOdds takeBest rest
termination_by ls => ls.length
decreasing_by
  all_goals simp
  all_goals (have h := collectFlat_snd_le (rest.drop 3);
             simp [List.length_drop] at h; omega)

/-! ## Match segmenter `parse_file` (arbitrage_football.py, lines 476-577) -/

/-- Full match of `^\d+:\d+$`. -/
def timeRe (s : String) : Bool :=
  let ds := s.data.takeWhile Char.isDigit
  match s.data.dropWhile Char.isDigit with
  | ':' :: rest => ds ≠ [] && rest ≠ [] && rest.all Char.isDigit
  | _ => false

/-- The navigation/league stoplist of `parse_file` (arbitrage_football.py). -/
def invalid_teams : List String :=
  ["top", "tiket", "sve lige", "albanija", "england", "premier",
   "scotland", "championship", "italy", "serie", "germany",
   "bundesliga", "spain", "laliga", "france", "ligue", "naredne",
   "početna", "kvote", "novo", "promocije", "uloguj se", "fudbal",
   "košarka", "tenis", "hokej", "omiljene lige", "engleska",
   "francuska", "italija", "nemačka", "srbija", "španija"]

/-- The team-line validator: lowercased name in the stoplist, length at most
3, or a stoplist term as a substring. -/
def invalidTeam (t : String) : Bool :=
  invalid_teams.contains ⟨t.data.map Char.toLower⟩ || t.length ≤ 3
    || invalid_teams.any (fun skip => isInfixB skip.data (t.data.map Char.toLower))

/-- The odds-collection loop of the segmenter: up to 10 numbers; a value in
`[1.1, 50]` is collected, anything else stops the scan once some odds were
seen (the offending line is not consumed). -/
def collectAF : List ℚ → List String → List ℚ × List String
  | odds, [] => (odds, [])
  | odds, x :: xs =>
    if 10 ≤ odds.length then (odds, x :: xs)
    else
      match pyFloat? ⟨x.data.map (fun c => if c = ',' then '.' else c)⟩ with
      | some v =>
        if 11/10 ≤ v ∧ v ≤ 50 then collectAF (odds ++ [v]) xs
        else if odds ≠ [] then (odds, x :: xs) else collectAF odds xs
      | none => if odds ≠ [] then (odds, x :: xs) else collectAF odds xs

theorem collectAF_snd_le (odds : List ℚ) (xs : List String) :
    (collectAF odds xs).2.length ≤ xs.length := by
  induction xs generalizing odds with
  | nil => simp [collectAF]
  | cons x xs ih =>
    simp only [collectAF]
    split
    · simp
    · split
      · split
        · exact le_trans (ih _) (by simp)
        · split
          · simp
          · exact le_trans (ih _) (by simp)
      · split
        · simp
        · exact le_trans (ih _) (by simp)

/-- A match record of the arbitrage_football segmenter. -/
structure AFMatch where
  teams : String
  team1 : String
  team2 : String
  time : String
  odds : List (String × ℚ)
deriving Repr, DecidableEq

/-- `parse_file` of arbitrage_football.py: anchor on a time-pattern line,
validate the two following team lines, collect 5-7 odds; on any validator
rejection advance the scan by exactly one line. -/
def parse_file_af : List String → List AFMatch
  | [] => []
  | [_] => []
  | l :: t1 :: rest1 =>
    if timeRe l then
      if invalidTeam t1 then parse_file_af (t1 :: rest1)
      else
        match rest1 with
        | [] => parse_file_af [t1]
        | t2 :: rest2 =>
          if invalidTeam t2 then parse_file_af (t1 :: t2 :: rest2)
          else
            let r := collectAF [] rest2
            if 5 ≤ r.1.length ∧ r.1.length ≤ 7 then
              { teams := t1 ++ " vs " ++ t2, team1 := t1, team2 := t2, time := l,
                odds := [("1", r.1.getD 0 0), ("X", r.1.getD 1 0),
                         ("2", r.1.getD 2 0), ("0-2", r.1.getD 3 0),
                         ("3+", r.1.getD 4 0)]
                  ++ (if 6 ≤ r.1.length then [("GG", r.1.getD 5 0)] else [])
                  ++ (if 7 ≤ r.1.length then [("NG", r.1.getD 6 0)] else []) }
                :: parse_file_af r.2
            else parse_file_af (t1 :: t2 :: rest2)
    else parse_file_af (t1 :: rest1)
termination_by ls => ls.length
decreasing_by
  all_goals simp
  have h := collectAF_snd_le [] rest
  omega

/-! ## Helper lemmas -/

theorem map_triple_eta (l : List (ℚ × ℚ × String)) :
    l.map (fun e => (e.1, e.2.1, e.2.2)) = l := by
  simp

theorem invSum_pos {xs : List ℚ} (h : ∀ x ∈ xs, 0 < x) (hne : xs ≠ []) :
    0 < invSum xs := by
  match xs, hne with
  | a :: l, _ =>
    have ha : 0 < a := h a (by simp)
    have h2 : 0 ≤ (l.map (fun o => 1/o)).sum := by
      apply List.sum_nonneg
      intro y hy
      obtain ⟨x, hx, rfl⟩ := List.mem_map.1 hy
      have := h x (by simp [hx])
      positivity
    have h1 : 0 < 1 / a := by positivity
    simp only [invSum, List.map_cons, List.sum_cons]
    linarith

theorem redistribute_exit {rm : ℚ} (h1 : 1 ≤ rm) :
    ∀ (fuel : ℕ) (rounded : List (ℚ × ℚ × String)) (diff : ℚ),
      ⌊diff / rm⌋ ≤ (fuel : ℤ) → rounded ≠ [] →
      (redistribute rm fuel rounded diff).2 < rm := by
  intro fuel
  induction fuel with
  | zero =>
    intro rounded diff hf _
    simp only [redistribute]
    have h0 : 0 < rm := by linarith
    have hlt : diff / rm < 1 := by
      have hfloor : ⌊diff / rm⌋ < 1 := lt_of_le_of_lt hf (by norm_num)
      calc diff / rm < ⌊diff / rm⌋ + 1 := Int.lt_floor_add_one _
        _ ≤ 1 := by exact_mod_cast hfloor
    exact (div_lt_one h0).1 hlt
  | succ fuel ih =>
    intro rounded diff hf hne
    simp only [redistribute]
    split
    · rename_i hcond
      split
      · rename_i hsorted
        exfalso
        have hperm := List.perm_insertionSort
          (fun (a b : ℚ × ℚ × String) => a.1 * a.2.1 ≤ b.1 * b.2.1) rounded
        rw [sortByReturn] at hsorted
        rw [hsorted] at hperm
        exact hcond.2 (List.Perm.nil_eq hperm).symm
      · rename_i e rest hsorted
        apply ih
        · have h0 : rm ≠ 0 := by linarith
          have heq : (diff - rm) / rm = diff / rm - ((1 : ℤ) : ℚ) := by
            push_cast
            field_simp
          rw [heq, Int.floor_sub_int]
          omega
        · simp
    · rename_i hcond
      rw [not_and_or] at hcond
      rcases hcond with hd | hr
      · exact lt_of_not_le hd
      · exact absurd hne hr

theorem redistribute_snd_perm (rm : ℚ) :
    ∀ (fuel : ℕ) (rounded : List (ℚ × ℚ × String)) (diff : ℚ),
      ((redistribute rm fuel rounded diff).1.map Prod.snd).Perm
        (rounded.map Prod.snd) := by
  intro fuel
  induction fuel with
  | zero => intro rounded diff; simp [redistribute]
  | succ fuel ih =>
    intro rounded diff
    simp only [redistribute]
    split
    · split
      · exact List.Perm.refl _
      · rename_i e rest hsorted
        refine (ih _ _).trans ?_
        have hperm : (e :: rest).Perm rounded := by
          rw [sortByReturn] at hsorted
          rw [← hsorted]
          exact List.perm_insertionSort _ _
        have hmap : ((e.1 + rm, e.2.1, e.2.2) :: rest).map Prod.snd
            = (e :: rest).map Prod.snd := by simp
        rw [hmap]
        exact hperm.map _
    · exact List.Perm.refl _

theorem flooredStakes_snd (rm : ℚ) (u : List (ℚ × ℚ × String)) :
    (flooredStakes rm u).map Prod.snd = u.map Prod.snd := by
  simp [flooredStakes, List.map_map, Function.comp_def]

theorem unroundedStakes_snd (valid : List (ℚ × String)) (total : ℚ) :
    (unroundedStakes valid total).map Prod.snd = valid := by
  simp [unroundedStakes, List.map_map, Function.comp_def]

theorem roundedAlloc_snd_perm (odds : List (ℚ × String)) (total rm0 : ℚ) :
    ((roundedAlloc odds total rm0).map Prod.snd).Perm (validOdds odds) := by
  unfold roundedAlloc
  refine (redistribute_snd_perm _ _ _ _).trans ?_
  rw [flooredStakes_snd, unroundedStakes_snd]

/-! ## Claim theorems -/

/-- C3: for every surebet input (at least two positive odds with
inverse-odds sum < 1) and every positive total stake, the theoretical
(pre-rounding) allocation `stake_i = total * (1/odds_i) / inv_sum` makes the
projected return `stake_i * odds_i` equal across all outcomes, each equal to
`total / inv_sum` (exactly, in the rational model — hence within any
floating-point tolerance). -/
theorem claim3_equal_returns (valid : List (ℚ × String)) (total : ℚ)
    (hpos : ∀ ob ∈ valid, 0 < ob.1) (hlen : 2 ≤ valid.length)
    (hinv : invSum (valid.map Prod.fst) < 1) (htot : 0 < total) :
    ∀ e ∈ unroundedStakes valid total,
      e.1 * e.2.1 = total / invSum (valid.map Prod.fst) := by
  intro e he
  simp only [unroundedStakes, List.mem_map] at he
  obtain ⟨ob, hob, rfl⟩ := he
  have ho : 0 < ob.1 := hpos ob hob
  have hvne : valid ≠ [] := by rintro rfl; simp at hlen
  have hinvpos : 0 < invSum (valid.map Prod.fst) := by
    apply invSum_pos
    · intro x hx
      obtain ⟨ob', hob', rfl⟩ := List.mem_map.1 hx
      exact hpos ob' hob'
    · simpa using hvne
  have h1 : ob.1 ≠ 0 := ne_of_gt ho
  have h2 : invSum (valid.map Prod.fst) ≠ 0 := ne_of_gt hinvpos
  dsimp only
  field_simp
  ring

/-- Witness for C3 at odds 2 and 4 with total stake 100: the first
theoretical stake 200/3 on odds 2 returns exactly `total / inv_sum`. -/
theorem claim3_witness :
    (200/3 : ℚ) * 2 = 100 / invSum ([((2 : ℚ), "a"), ((4 : ℚ), "b")].map Prod.fst) :=
  claim3_equal_returns [((2 : ℚ), "a"), ((4 : ℚ), "b")] 100
    (by with_unfolding_all decide) (by decide)
    (by with_unfolding_all decide) (by with_unfolding_all decide)
    ((200/3 : ℚ), (2 : ℚ), "a") (by with_unfolding_all decide)

/-- C9: `compute_stakes` is total — the rounding granularity is clamped to
at least 1, and, fed with fuel `⌊diff / rm⌋`, the greedy redistribution loop
(which subtracts `rm` from `diff` on every iteration) stops in a state where
the loop condition `diff ≥ rm` fails. -/
theorem claim9_termination (rm0 diff : ℚ) (rounded : List (ℚ × ℚ × String))
    (hne : rounded ≠ []) :
    1 ≤ clampRM rm0 ∧
      (redistribute (clampRM rm0) (redistFuel (clampRM rm0) diff)
        rounded diff).2 < clampRM rm0 := by
  have h1 : 1 ≤ clampRM rm0 := by
    unfold clampRM
    split
    · exact le_refl 1
    · linarith [not_lt.1 (by assumption : ¬ rm0 < 1)]
  refine ⟨h1, redistribute_exit h1 _ rounded diff ?_ hne⟩
  unfold redistFuel
  exact Int.self_le_toNat _

/-- Witness for C9 at `round_multiple = 0`, `diff = 5/2`, one outcome. -/
theorem claim9_witness :
    1 ≤ clampRM 0 ∧
      (redistribute (clampRM 0) (redistFuel (clampRM 0) (5/2))
        [((1 : ℚ), (2 : ℚ), "b")] (5/2)).2 < clampRM 0 :=
  claim9_termination 0 (5/2) [((1 : ℚ), (2 : ℚ), "b")] (by decide)

/-- C10: when `compute_stakes` returns a non-empty stakes list, the multiset
of `(odds, bookmaker)` pairs of the returned stake tuples is exactly the
multiset of input pairs with positive odds (one stake per outcome, odds and
bookmaker unchanged), as a permutation: the greedy loop re-sorts by
projected return, so only the order may differ from the input. -/
theorem claim10_stakes_pairs_perm (odds : List (ℚ × String)) (total rm0 : ℚ)
    (h : (compute_stakes odds total rm0).1 ≠ []) :
    (((compute_stakes odds total rm0).1.map Prod.snd)).Perm (validOdds odds) := by
  revert h
  simp only [compute_stakes]
  split
  · intro h; exact absurd rfl h
  · split
    · intro h; exact absurd rfl h
    · split
      · intro h; exact absurd rfl h
      · intro _
        rw [map_triple_eta]
        exact roundedAlloc_snd_perm odds total rm0

/-- Witness for C10 at a concrete three-way surebet. -/
theorem claim10_witness :
    (compute_stakes [((21 : ℚ)/10, "x"), ((79 : ℚ)/20, "y"), ((21 : ℚ)/5, "z")] 100 1).1 ≠ [] ∧
      ((compute_stakes [((21 : ℚ)/10, "x"), ((79 : ℚ)/20, "y"), ((21 : ℚ)/5, "z")] 100 1).1.map
        Prod.snd).Perm (validOdds [((21 : ℚ)/10, "x"), ((79 : ℚ)/20, "y"), ((21 : ℚ)/5, "z")]) :=
  ⟨by with_unfolding_all decide,
   claim10_stakes_pairs_perm [((21 : ℚ)/10, "x"), ((79 : ℚ)/20, "y"), ((21 : ℚ)/5, "z")]
     100 1 (by with_unfolding_all decide)⟩

/-- C2: whenever `compute_stakes` returns a non-empty stakes list, the
post-rounding guarantee `min_i (stake_i * odds_i) > Σ_i stake_i` holds
(the sum of the returned stakes is the effective total); and whenever the
post-rounding actual profit is ≤ 0, the empty stakes list is returned. -/
theorem claim2_post_rounding_guarantee (odds : List (ℚ × String)) (total rm0 : ℚ) :
    ((compute_stakes odds total rm0).1 ≠ [] →
      ((compute_stakes odds total rm0).1.map (fun s => s.1)).sum
        < pyMin ((compute_stakes odds total rm0).1.map (fun s => s.1 * s.2.1)))
    ∧ (pyMin ((roundedAlloc odds total rm0).map (fun e => e.1 * e.2.1))
          - ((roundedAlloc odds total rm0).map (fun e => e.1)).sum ≤ 0 →
        (compute_stakes odds total rm0).1 = []) := by
  simp only [compute_stakes]
  split
  · exact ⟨fun h => absurd rfl h, fun _ => rfl⟩
  · split
    · exact ⟨fun h => absurd rfl h, fun _ => rfl⟩
    · split
      · exact ⟨fun h => absurd rfl h, fun _ => rfl⟩
      · rename_i hprof
        constructor
        · intro _
          rw [map_triple_eta]
          have : ((roundedAlloc odds total rm0).map (fun s => s.1 * s.2.1))
              = ((roundedAlloc odds total rm0).map (fun e => e.1 * e.2.1)) := rfl
          push_neg at hprof
          have hsum : ((roundedAlloc odds total rm0).map (fun s => s.1)).sum
              = ((roundedAlloc odds total rm0).map (fun e => e.1)).sum := rfl
          linarith [hprof]
        · intro hle
          exact absurd (by linarith) hprof

/-- Witness for C2 at a concrete three-way surebet: the stakes list is
non-empty and the minimum return strictly exceeds the total staked. -/
theorem claim2_witness :
    (compute_stakes [((21 : ℚ)/10, "x"), ((79 : ℚ)/20, "y"), ((21 : ℚ)/5, "z")] 100 1).1 ≠ [] ∧
      ((compute_stakes [((21 : ℚ)/10, "x"), ((79 : ℚ)/20, "y"), ((21 : ℚ)/5, "z")] 100 1).1.map
          (fun s => s.1)).sum
        < pyMin ((compute_stakes [((21 : ℚ)/10, "x"), ((79 : ℚ)/20, "y"), ((21 : ℚ)/5, "z")]
            100 1).1.map (fun s => s.1 * s.2.1)) :=
  ⟨by with_unfolding_all decide,
   (claim2_post_rounding_guarantee [((21 : ℚ)/10, "x"), ((79 : ℚ)/20, "y"), ((21 : ℚ)/5, "z")]
     100 1).1 (by with_unfolding_all decide)⟩

/-- C6: the surebet check returns `none` (no exception — the function is
total) exactly when fewer than 2 quotes survive the range filter or the
inverse-odds sum is ≥ 1 (so `inv_sum = 1` exactly is not a surebet, the
comparison being strict); `compute_stakes` likewise returns no stakes in its
corresponding edge cases. -/
theorem claim6_edge_cases :
    (∀ odds : List (ℚ × String),
      check_surebet odds = none ↔
        ((cleanOdds odds).length < 2 ∨ 1 ≤ invSum (cleanOdds odds)))
    ∧ (∀ (odds : List (ℚ × String)) (total rm0 : ℚ),
        (validOdds odds).length < 2 ∨ 1 ≤ invSum ((validOdds odds).map Prod.fst) →
          (compute_stakes odds total rm0).1 = []) := by
  constructor
  · intro odds
    simp only [check_surebet]
    split
    · simp_all
    · split
      · rename_i h1 h2
        simp only [reduceCtorEq, false_iff, not_or, not_le]
        exact ⟨h1, h2⟩
      · rename_i h1 h2
        simp only [true_iff]
        exact Or.inr (not_lt.1 h2)
  · intro odds total rm0 h
    simp only [compute_stakes]
    split
    · rfl
    · rename_i h1
      split
      · rfl
      · rename_i h2
        rcases h with h | h
        · exact absurd h h1
        · exact absurd h h2

/-- Witness for C6: odds `2 / 2` give `inv_sum` exactly 1, hence no
opportunity and no stakes. -/
theorem claim6_witness :
    check_surebet [((2 : ℚ), "a"), ((2 : ℚ), "b")] = none ∧
      (compute_stakes [((2 : ℚ), "a"), ((2 : ℚ), "b")] 100 1).1 = [] :=
  ⟨(claim6_edge_cases.1 [((2 : ℚ), "a"), ((2 : ℚ), "b")]).mpr
      (Or.inr (by with_unfolding_all decide)),
   claim6_edge_cases.2 [((2 : ℚ), "a"), ((2 : ℚ), "b")] 100 1
      (Or.inr (by with_unfolding_all decide))⟩

/-- Key property of one `analyze_surebets` group block: an emitted record
passed the profit gate, and its stored profit is exactly the value
`check_surebet` computed on the group's quotes. -/
theorem surebetGroup_mem {m : PyMatch} {labels : List String} {tname : String}
    {minP tt rd : ℚ} {sb : Surebet}
    (h : sb ∈ surebetGroup m labels tname minP tt rd) :
    minP ≤ sb.profit ∧ 0 < sb.profit ∧
      check_surebet (sb.gOdds.map Prod.snd) = some sb.profit := by
  unfold surebetGroup at h
  split at h
  · dsimp only at h
    split at h
    · simp at h
    · rename_i p heq
      split at h
      · rename_i hgate
        split at h
        · simp only [List.mem_singleton] at h
          subst h
          exact ⟨hgate.1, hgate.2, heq⟩
        · simp at h
      · simp at h
  · simp at h

/-- C1, counterexample: for the match with 1X2 odds 2.10 / 3.95 / 4.20 the
analyzer emits an opportunity whose reported profit percentage is 3.25 —
`round((1 - inv_sum) * 100, 2)`, the margin — which differs from the ROI
formula `round((1/inv_sum - 1) * 100, 2) = 3.36` required by the claim. -/
theorem claim1_counterexample :
    ((analyze_surebets
        [⟨"A vs B", [("Home", 21/10, "b"), ("Draw", 79/20, "b"), ("Away", 21/5, "b")]⟩]
        0 none none (some 100) 1).map Surebet.profit = [13/4])
    ∧ invSum [21/10, 79/20, 21/5] < 1
    ∧ (13/4 : ℚ) ≠ round2 ((1 / invSum [21/10, 79/20, 21/5] - 1) * 100) := by
  with_unfolding_all decide

/-- C1, amended: every emitted opportunity satisfies the profit gate
`profit ≥ min_profit` and `profit > 0`, where the reported profit is the
value of `check_surebet` on the group's quotes — which is the margin
`round((1 - inv_sum) * 100, 2)` over the in-range quotes (with `inv_sum < 1`),
not the ROI; it is the NFL two-way detector that computes
`roi_pct = round((1/inv_sum - 1) * 100, 2)` next to that margin. -/
theorem claim1_amended :
    (∀ (ms : List PyMatch) (minP : ℚ) (smin smax : Option ℤ) (stot : Option ℚ)
        (srd : ℚ), ∀ sb ∈ analyze_surebets ms minP smin smax stot srd,
          minP ≤ sb.profit ∧ 0 < sb.profit ∧
            check_surebet (sb.gOdds.map Prod.snd) = some sb.profit)
    ∧ (∀ (odds : List (ℚ × String)) (p : ℚ), check_surebet odds = some p →
        invSum (cleanOdds odds) < 1 ∧
          p = round2 ((1 - invSum (cleanOdds odds)) * 100))
    ∧ (∀ o1 o2 : ℚ, (is_surebet_two_way o1 o2).1 = true →
        1/o1 + 1/o2 < 1 ∧
          (is_surebet_two_way o1 o2).2.2 = round2 ((1/(1/o1 + 1/o2) - 1) * 100) ∧
          (is_surebet_two_way o1 o2).2.1 = round2 ((1 - (1/o1 + 1/o2)) * 100)) := by
  refine ⟨?_, ?_, ?_⟩
  · intro ms minP smin smax stot srd sb hsb
    simp only [analyze_surebets] at hsb
    rw [List.mem_flatMap] at hsb
    obtain ⟨m, _, hsb⟩ := hsb
    split at hsb
    · simp at hsb
    · rcases List.mem_append.1 hsb with hsb | hsb
      · rcases List.mem_append.1 hsb with hsb | hsb
        · exact surebetGroup_mem hsb
        · exact surebetGroup_mem hsb
      · exact surebetGroup_mem hsb
  · intro odds p h
    unfold check_surebet at h
    dsimp only at h
    split at h
    · simp at h
    · split at h
      · rename_i hlt
        exact ⟨hlt, (Option.some_injective _ h.symm : _)⟩
      · simp at h
  · intro o1 o2 h
    unfold is_surebet_two_way at h ⊢
    dsimp only at h ⊢
    by_cases hc : 1/o1 + 1/o2 < 1
    · rw [if_pos hc]
      exact ⟨hc, rfl, rfl⟩
    · rw [if_neg hc] at h
      simp at h

/-- Witness for the amended C1: the reported percentage for odds
2.10 / 3.95 / 4.20 is the margin 3.25. -/
theorem claim1_amended_witness :
    invSum (cleanOdds [((21:ℚ)/10, "b"), ((79:ℚ)/20, "b"), ((21:ℚ)/5, "b")]) < 1 ∧
      (13/4 : ℚ) = round2 ((1 - invSum
        (cleanOdds [((21:ℚ)/10, "b"), ((79:ℚ)/20, "b"), ((21:ℚ)/5, "b")])) * 100) :=
  claim1_amended.2.1 [((21:ℚ)/10, "b"), ((79:ℚ)/20, "b"), ((21:ℚ)/5, "b")] (13/4)
    (by with_unfolding_all decide)

/-- C5, counterexample: the 1X2 group with odds 2 / 3 / 100 contains a quote
(100) that fails the 0.5–69 range check, yet `analyze_surebets` still emits
an opportunity for the group: the failing quote is silently dropped by
`check_surebet` and the two survivors are evaluated as the group. -/
theorem claim5_counterexample :
    (analyze_surebets
        [⟨"A vs B", [("Home", 2, "b"), ("Draw", 3, "b"), ("Away", 100, "b")]⟩]
        0 none none (some 100) 1) ≠ []
    ∧ ¬((1:ℚ)/2 ≤ 100 ∧ (100:ℚ) ≤ 69) := by
  with_unfolding_all decide

theorem cleanOdds_filter (odds : List (ℚ × String)) :
    cleanOdds (odds.filter (fun ob => 1/2 ≤ ob.1 ∧ ob.1 ≤ 69)) = cleanOdds odds := by
  have helper : ∀ (q : ℚ → Bool) (l : List (ℚ × String)),
      (l.filter (fun ob => q ob.1)).map Prod.fst = (l.map Prod.fst).filter q := by
    intro q l
    induction l with
    | nil => rfl
    | cons a t ih =>
      simp only [List.filter_cons, List.map_cons]
      cases h : q a.1 <;> simp [h, ih]
  have hfilter : ∀ (q : ℚ → Bool) (l : List ℚ), (l.filter q).filter q = l.filter q := by
    intro q l
    rw [List.filter_filter]
    simp [Bool.and_self]
  show ((odds.filter (fun ob => (fun o => decide ((1:ℚ)/2 ≤ o ∧ o ≤ 69)) ob.1)).map
      Prod.fst).filter (fun o => decide ((1:ℚ)/2 ≤ o ∧ o ≤ 69)) = cleanOdds odds
  rw [helper (fun o => decide ((1:ℚ)/2 ≤ o ∧ o ≤ 69)) odds]
  exact hfilter _ _

/-- C5, amended: in the NFL two-way detector every quote of an emitted
opportunity passed the 0.5–69 range check independently (a failing quote
excludes the whole match); in the football analyzer's `check_surebet`,
out-of-range quotes are instead silently dropped — the check behaves
identically on the group and on its in-range subset, so the surviving quotes
are evaluated as if they formed the group. -/
theorem claim5_amended :
    (∀ (ms : List PyMatch) (minP total : ℚ),
        ∀ sb ∈ detect_two_way_surebets ms minP total,
          ((1:ℚ)/2 ≤ sb.homeOdd ∧ sb.homeOdd ≤ 69) ∧
            ((1:ℚ)/2 ≤ sb.awayOdd ∧ sb.awayOdd ≤ 69))
    ∧ (∀ odds : List (ℚ × String),
        check_surebet odds
          = check_surebet (odds.filter (fun ob => 1/2 ≤ ob.1 ∧ ob.1 ≤ 69))) := by
  constructor
  · intro ms minP total sb hsb
    unfold detect_two_way_surebets at hsb
    rw [List.mem_insertionSort, List.mem_filterMap] at hsb
    obtain ⟨m, _, hf⟩ := hsb
    split at hf
    · rename_i o1 b1 o2 b2 _ _
      dsimp only at hf
      split at hf
      · rename_i hrange
        split at hf
        · injection hf with hf
          subst hf
          exact hrange
        · simp at hf
      · simp at hf
    · simp at hf
  · intro odds
    unfold check_surebet
    rw [cleanOdds_filter]

set_option maxRecDepth 4000 in
/-- Witness for the amended C5 at a concrete emitted NFL opportunity. -/
theorem claim5_amended_witness :
    ((1:ℚ)/2 ≤ 21/10 ∧ (21/10:ℚ) ≤ 69) ∧ ((1:ℚ)/2 ≤ 39/10 ∧ (39/10:ℚ) ≤ 69) :=
  claim5_amended.1 [⟨"N1", [("Home", 21/10, "x"), ("Away", 39/10, "y")]⟩] 0 100
    ⟨"N1", 1337/50, 73/2, 21/10, "x", 39/10, "y", 65, 35⟩
    (by with_unfolding_all decide)

/-- C7: when the segmenter's anchor matches but the team-line validator
rejects the following candidate line (first or second team), no line is
consumed as part of a match, no record is emitted, and the scan resumes
exactly one line later — so the parse of the whole tail is unchanged and a
real match anchored one line later is still found. -/
theorem claim7_segmenter_advances_one (l t1 : String) (rest : List String)
    (htime : timeRe l = true) :
    (invalidTeam t1 = true →
      parse_file_af (l :: t1 :: rest) = parse_file_af (t1 :: rest))
    ∧ (∀ t2 rest2, rest = t2 :: rest2 → invalidTeam t1 = false →
        invalidTeam t2 = true →
        parse_file_af (l :: t1 :: rest) = parse_file_af (t1 :: rest)) := by
  constructor
  · intro h
    rw [parse_file_af.eq_def]
    simp [htime, h]
  · rintro t2 rest2 rfl h1 h2
    rw [parse_file_af.eq_def]
    simp [htime, h1, h2]

/-- Witness for C7: the stoplisted line "Premier League" after the anchor
"13:30" is not consumed, and the real match anchored at "14:30" is found. -/
theorem claim7_witness :
    parse_file_af ["13:30", "Premier League", "14:30", "Alpha Team",
        "Betar Team", "2.1", "3.4", "3.9", "1.8", "2.2"]
      = parse_file_af ["Premier League", "14:30", "Alpha Team",
        "Betar Team", "2.1", "3.4", "3.9", "1.8", "2.2"]
    ∧ parse_file_af ["Premier League", "14:30", "Alpha Team",
        "Betar Team", "2.1", "3.4", "3.9", "1.8", "2.2"] ≠ [] :=
  ⟨(claim7_segmenter_advances_one "13:30" "Premier League" _ (by decide)).1
      (by decide),
   by with_unfolding_all decide⟩

/-- C8: every match emitted by `parse_flat_blocks` passed the two-outcome
Under/Over validation gate: the `0-2` and `3+` odds are present, are not
suspiciously close (absolute difference ≥ 0.3), and both lie inside the
realistic sub-range `[1.1, 10.0]`; a failing match is silently absent from
the output list (the parser is total — no error is raised). -/
theorem claim8_ou_gate (minOdds : ℕ) (tb : Bool) (lines : List String) :
    ∀ m ∈ parse_flat_blocks minOdds tb lines,
      ∃ a b, lookupOdds m.odds "0-2" = some (a, "AUTO")
        ∧ lookupOdds m.odds "3+" = some (b, "AUTO")
        ∧ 3/10 ≤ |a - b| ∧ 11/10 ≤ a ∧ a ≤ 10 ∧ 11/10 ≤ b ∧ b ≤ 10 := by
  induction lines using parse_flat_blocks.induct minOdds tb with
  | case1 => simp [parse_flat_blocks]
  | case2 l rest hcond t1 t2 hteams ih =>
    rw [parse_flat_blocks.eq_def]
    simp only [if_pos hcond]
    rw [if_pos hteams]
    exact ih
  | case3 l rest hcond t1 t2 hteams r hlen om o02 o3p ouValid hgate ih =>
    rw [parse_flat_blocks.eq_def]
    simp only [if_pos hcond]
    rw [if_neg hteams, if_pos hlen, if_pos hgate]
    intro m hm
    rcases List.mem_cons.1 hm with rfl | hm
    · obtain ⟨hg7, hou⟩ := hgate
      obtain ⟨hclose, h02a, h02b, h3a, h3b⟩ := hou
      have hc' : ¬|(collectFlat (List.drop 3 rest)).1.getD 3 0
          - (collectFlat (List.drop 3 rest)).1.getD 4 0| < 3/10 := hclose
      have h1' : 11/10 ≤ (collectFlat (List.drop 3 rest)).1.getD 3 0 := h02a
      have h2' : (collectFlat (List.drop 3 rest)).1.getD 3 0 ≤ 10 := h02b
      have h3' : 11/10 ≤ (collectFlat (List.drop 3 rest)).1.getD 4 0 := h3a
      have h4' : (collectFlat (List.drop 3 rest)).1.getD 4 0 ≤ 10 := h3b
      have hlen' : (collectFlat (List.drop 3 rest)).1.length = 7 := hlen
      rcases hvs : (collectFlat (List.drop 3 rest)).1 with
        _ | ⟨v0, _ | ⟨v1, _ | ⟨v2, _ | ⟨v3, _ | ⟨v4, _ | ⟨v5, _ | ⟨v6, _ | ⟨v7, t⟩⟩⟩⟩⟩⟩⟩⟩ <;>
        rw [hvs] at hlen' hc' h1' h2' h3' h4' <;>
        simp only [List.length_cons, List.length_nil] at hlen' <;>
        first
        | omega
        | (simp only [List.getD_cons_succ, List.getD_cons_zero] at hc' h1' h2' h3' h4'
           exact ⟨v3, v4, rfl, rfl, not_lt.1 hc', h1', h2', h3', h4'⟩)
    · exact ih m hm
  | case4 l rest hcond t1 t2 hteams r hlen om o02 o3p ouValid hgate ih =>
    rw [parse_flat_blocks.eq_def]
    simp only [if_pos hcond]
    rw [if_neg hteams, if_pos hlen, if_neg hgate]
    exact ih
  | case5 l rest hcond t1 t2 hteams r hlen ih =>
    rw [parse_flat_blocks.eq_def]
    simp only [if_pos hcond]
    rw [if_neg hteams, if_neg hlen]
    exact ih
  | case6 l rest hcond ih =>
    rw [parse_flat_blocks.eq_def]
    simp only [if_neg hcond]
    exact ih

set_option maxRecDepth 8000 in
/-- Witness for C8 at a concrete seven-odds block. -/
theorem claim8_witness :
    ∃ a b,
      lookupOdds (PyMatch.odds ⟨"Arsenal vs Chelsea",
          [("Home", (21:ℚ)/10, "AUTO"), ("Draw", 17/5, "AUTO"),
           ("Away", 39/10, "AUTO"), ("0-2", 3/2, "AUTO"), ("3+", 5/2, "AUTO"),
           ("GG", 19/10, "AUTO"), ("GG3+", 11/5, "AUTO")]⟩) "0-2" = some (a, "AUTO")
      ∧ lookupOdds (PyMatch.odds ⟨"Arsenal vs Chelsea",
          [("Home", (21:ℚ)/10, "AUTO"), ("Draw", 17/5, "AUTO"),
           ("Away", 39/10, "AUTO"), ("0-2", 3/2, "AUTO"), ("3+", 5/2, "AUTO"),
           ("GG", 19/10, "AUTO"), ("GG3+", 11/5, "AUTO")]⟩) "3+" = some (b, "AUTO")
      ∧ 3/10 ≤ |a - b| ∧ 11/10 ≤ a ∧ a ≤ 10 ∧ 11/10 ≤ b ∧ b ≤ 10 :=
  claim8_ou_gate 3 false
    ["sre, 01.01.", "20:45", "Arsenal", "Chelsea",
     "2.1", "3.4", "3.9", "1.5", "2.5", "1.9", "2.2", "+123"]
    ⟨"Arsenal vs Chelsea",
      [("Home", (21:ℚ)/10, "AUTO"), ("Draw", 17/5, "AUTO"),
       ("Away", 39/10, "AUTO"), ("0-2", 3/2, "AUTO"), ("3+", 5/2, "AUTO"),
       ("GG", 19/10, "AUTO"), ("GG3+", 11/5, "AUTO")]⟩
    (by with_unfolding_all decide)

/-- One step of the AUTO-snapshot block loop stores only values that passed
the `0.5 ≤ val ≤ 700` gate. -/
theorem autoBlockStep_range {st : AutoState} {bl : String}
    (h : ∀ e ∈ st.oddsMap, 1/2 ≤ e.2.1 ∧ e.2.1 ≤ 700) :
    ∀ e ∈ (autoBlockStep st bl).oddsMap, 1/2 ≤ e.2.1 ∧ e.2.1 ≤ 700 := by
  unfold autoBlockStep
  split
  · exact h
  · split
    · split
      · exact h
      · exact h
    · split
      · rename_i v bk heq
        intro e he
        rcases List.mem_append.1 he with he | he
        · exact h e he
        · simp only [List.mem_singleton] at he
          subst he
          split at heq
          · exact absurd heq (by simp)
          · split at heq
            · split at heq
              · rename_i v' g2 hr
                injection heq with heq
                rw [← heq]
                exact hr
              · exact absurd heq (by simp)
            · exact absurd heq (by simp)
      · split
        · split
          · split
            · rename_i hv
              intro e he
              rcases List.mem_append.1 he with he | he
              · exact h e he
              · simp only [List.mem_singleton] at he
                subst he
                exact hv
            · exact h
          · exact h
        · exact h

/-- The block fold of the AUTO-snapshot parser preserves the range gate. -/
theorem autoBlock_fold_range (block : List String) :
    ∀ st : AutoState, (∀ e ∈ st.oddsMap, 1/2 ≤ e.2.1 ∧ e.2.1 ≤ 700) →
      ∀ e ∈ (block.foldl autoBlockStep st).oddsMap, 1/2 ≤ e.2.1 ∧ e.2.1 ≤ 700 := by
  induction block with
  | nil => intro st h; exact h
  | cons bl rest ih =>
    intro st h
    exact ih _ (autoBlockStep_range h)

/-- Every odds value stored by the AUTO-snapshot parser lies in `[0.5, 700]`. -/
theorem parse_auto_snapshot_range :
    ∀ (n : ℕ) (lines : List String), lines.length ≤ n →
      ∀ m ∈ parse_auto_snapshot_lines lines,
        ∀ e ∈ m.odds, 1/2 ≤ e.2.1 ∧ e.2.1 ≤ 700 := by
  intro n
  induction n with
  | zero =>
    intro lines hlen m hm
    rw [List.length_eq_zero.1 (Nat.le_zero.1 hlen)] at hm
    simp [parse_auto_snapshot_lines] at hm
  | succ n ih =>
    intro lines hlen m hm
    match lines, hm with
    | [], hm => simp [parse_auto_snapshot_lines] at hm
    | l :: rest, hm =>
      simp only [List.length_cons, Nat.add_le_add_iff_right] at hlen
      have hb : (List.dropWhile (fun s => decide ¬(startsWithPlus s || dtSearch s) = true)
          (List.drop 2 rest)).length ≤ rest.length :=
        le_trans (List.dropWhile_sublist _).length_le (by simp [List.length_drop])
      have hskip : (skipPlus (List.dropWhile
          (fun s => decide ¬(startsWithPlus s || dtSearch s) = true)
          (List.drop 2 rest))).length ≤ rest.length :=
        le_trans (skipPlus_length_le _) hb
      rw [parse_auto_snapshot_lines.eq_def] at hm
      dsimp only at hm
      split at hm
      · split at hm
        · rcases List.mem_cons.1 hm with rfl | hm
          · intro e he
            exact autoBlock_fold_range _ _ (by simp) e he
          · exact ih _ (le_trans hskip hlen) m hm
        · exact ih _ (le_trans hskip hlen) m hm
      · exact ih _ hlen m hm

/-- A value stored by the section parser's line handler passed the
`0.5 ≤ odd ≤ 69` gate. -/
theorem parseSectionLine_range {l : String} {e : ℚ × String}
    (h : parseSectionLine l = some e) : 1/2 ≤ e.1 ∧ e.1 ≤ 69 := by
  unfold parseSectionLine at h
  split at h
  · split at h
    · split at h
      · rename_i v _ hr
        injection h with h
        rw [← h]
        exact hr
      · exact absurd h (by simp)
    · exact absurd h (by simp)
  · split at h
    · split at h
      · split at h
        · rename_i v _ hr
          injection h with h
          rw [← h]
          exact hr
        · exact absurd h (by simp)
      · exact absurd h (by simp)
    · split at h
      · split at h
        · rename_i v g2 _ hr
          injection h with h
          rw [← h]
          exact hr
        · exact absurd h (by simp)
      · exact absurd h (by simp)

/-- Flushing the current section preserves the sections invariant. -/
theorem accFlush_range {cur : List (ℚ × String)}
    {acc : List (List (ℚ × String))}
    (hcur : ∀ x ∈ cur, 1/2 ≤ x.1 ∧ x.1 ≤ 69)
    (hacc : ∀ s ∈ acc, ∀ x ∈ s, 1/2 ≤ x.1 ∧ x.1 ≤ 69) :
    ∀ s ∈ acc ++ (if cur ≠ [] then [cur] else []),
      ∀ x ∈ s, 1/2 ≤ x.1 ∧ x.1 ≤ 69 := by
  intro s hs
  rcases List.mem_append.1 hs with hs | hs
  · exact hacc s hs
  · split at hs
    · simp only [List.mem_singleton] at hs
      subst hs
      exact hcur
    · simp at hs

/-- Every element of every section produced by the window loop of the
section parser passed the range gate. -/
theorem collectSections_range :
    ∀ (ls : List String) (cur : List (ℚ × String))
      (acc : List (List (ℚ × String))),
      (∀ x ∈ cur, 1/2 ≤ x.1 ∧ x.1 ≤ 69) →
      (∀ s ∈ acc, ∀ x ∈ s, 1/2 ≤ x.1 ∧ x.1 ≤ 69) →
      ∀ s ∈ collectSections cur acc ls, ∀ x ∈ s, 1/2 ≤ x.1 ∧ x.1 ≤ 69 := by
  intro ls
  induction ls with
  | nil =>
    intro cur acc hcur hacc s hs
    simp only [collectSections] at hs
    exact accFlush_range hcur hacc s hs
  | cons l0 rest ih =>
    intro cur acc hcur hacc s hs
    simp only [collectSections] at hs
    split at hs
    · split at hs
      · exact accFlush_range hcur hacc s hs
      · exact ih [] _ (by simp) (accFlush_range hcur hacc) s hs
    · split at hs
      · exact ih cur acc hcur hacc s hs
      · split at hs
        · rename_i e heq
          refine ih _ acc ?_ hacc s hs
          intro x hx
          rcases List.mem_append.1 hx with hx | hx
          · exact hcur x hx
          · simp only [List.mem_singleton] at hx
            subst hx
            exact parseSectionLine_range heq
        · exact ih cur acc hcur hacc s hs

theorem getD_zero_mem {α : Type} {l : List α} (h : l ≠ []) (d : α) :
    l.getD 0 d ∈ l := by
  match l with
  | [] => exact absurd rfl h
  | a :: t => simp [List.getD]

theorem forall_getD_zero {α : Type} {l : List α} {P : α → Prop} (h : l ≠ [])
    (hall : ∀ x ∈ l, P x) (d : α) : P (l.getD 0 d) :=
  hall _ (getD_zero_mem h d)

theorem mem_ite_or {α : Type} {P : Prop} [Decidable P] {e : α} {l1 l2 : List α}
    (h : e ∈ (if P then l1 else l2)) : (P ∧ e ∈ l1) ∨ (¬P ∧ e ∈ l2) := by
  split at h
  · rename_i hp; exact Or.inl ⟨hp, h⟩
  · rename_i hp; exact Or.inr ⟨hp, h⟩

/-- The section-assembly step only places values taken from the sections,
so the range gate carries over to the assembled odds map. -/
theorem assembleOdds_range {sections : List (List (ℚ × String))}
    (h : ∀ s ∈ sections, ∀ x ∈ s, 1/2 ≤ x.1 ∧ x.1 ≤ 69) :
    ∀ e ∈ assembleOdds sections, 1/2 ≤ e.2.1 ∧ e.2.1 ≤ 69 := by
  unfold assembleOdds
  split
  case isFalse => simp
  case isTrue hg =>
    obtain ⟨hlen4, hall⟩ := hg
    rw [List.all_eq_true] at hall
    have hP : ∀ i, i < sections.length → ∀ x ∈ sections.getD i [],
        1/2 ≤ x.1 ∧ x.1 ≤ 69 := by
      intro i hi x hx
      rw [List.getD_eq_getElem _ _ hi] at hx
      exact h _ (List.getElem_mem hi) x hx
    have hne : ∀ i, i < 4 → sections.getD i [] ≠ [] := by
      intro i hi
      have hi2 : i < sections.length := lt_of_lt_of_le hi hlen4
      have hmem : sections[i] ∈ sections.take 4 := by
        have ht : i < (sections.take 4).length := by
          simp only [List.length_take]
          omega
        have he : (sections.take 4)[i] = sections[i] := List.getElem_take _
        rw [← he]
        exact List.getElem_mem ht
      have hx := hall _ hmem
      rw [List.getD_eq_getElem _ _ hi2]
      simp only [decide_eq_true_eq] at hx
      intro hnil
      rw [hnil] at hx
      simp at hx
    have hPin : ∀ i, i < 4 → ∀ x ∈ sections.getD i [], 1/2 ≤ x.1 ∧ x.1 ≤ 69 :=
      fun i hi => hP i (lt_of_lt_of_le hi hlen4)
    simp only [bestAggregate, Bool.false_eq_true, if_false]
    intro e he
    rcases List.mem_append.1 he with he | he
    · rcases List.mem_append.1 he with he | he
      · simp only [List.mem_cons, List.mem_singleton, List.not_mem_nil,
          or_false] at he
        rcases he with rfl | rfl | rfl
        · exact hPin 0 (by omega) _ (getD_zero_mem (hne 0 (by omega)) _)
        · exact hPin 1 (by omega) _ (getD_zero_mem (hne 1 (by omega)) _)
        · exact hPin 2 (by omega) _ (getD_zero_mem (hne 2 (by omega)) _)
      · rcases mem_ite_or he with ⟨hc, he⟩ | ⟨_, he⟩
        · simp only [List.mem_singleton] at he
          subst he
          dsimp only
          refine @forall_getD_zero _ _ (fun x => 1/2 ≤ x.1 ∧ x.1 ≤ 69) hc ?_ _
          intro x hx
          rcases List.mem_append.1 hx with hx | hx
          · rcases mem_ite_or hx with ⟨_, hx⟩ | ⟨_, hx⟩
            · exact hPin 2 (by omega) x ((List.eraseIdx_sublist _ 0).subset hx)
            · simp at hx
          · rcases mem_ite_or hx with ⟨h3, hx⟩ | ⟨_, hx⟩
            · simp only [List.mem_singleton] at hx
              subst hx
              exact hPin 3 (by omega) _ (getD_zero_mem h3 _)
            · simp at hx
        · simp at he
    · rcases mem_ite_or he with ⟨hpc, he⟩ | ⟨_, he⟩
      · simp only [List.mem_singleton] at he
        subst he
        dsimp only
        refine @forall_getD_zero _ _ (fun x => 1/2 ≤ x.1 ∧ x.1 ≤ 69) hpc ?_ _
        intro x hx
        rcases mem_ite_or hx with ⟨h4, hx⟩ | ⟨_, hx⟩
        · simp only [List.mem_singleton] at hx
          subst hx
          exact hP 4 h4.2.1 _ (getD_zero_mem h4.2.2 _)
        · rcases mem_ite_or hx with ⟨h3, hx⟩ | ⟨_, hx⟩
          · simp only [List.mem_singleton] at hx
            subst hx
            exact hPin 3 (by omega) _ (getD_zero_mem h3.2 _)
          · rcases mem_ite_or hx with ⟨_, hx⟩ | ⟨_, hx⟩
            · rcases mem_ite_or hx with ⟨_, hx⟩ | ⟨_, hx⟩
              · exact hPin 3 (by omega) x (List.mem_of_mem_tail hx)
              · exact hPin 3 (by omega) x hx
            · simp at hx
      · simp at he

/-- Every odds value stored by the section parser lies in `[0.5, 69]`. -/
theorem parse_file_sections_range :
    ∀ (n : ℕ) (lines : List String), lines.length ≤ n →
      ∀ m ∈ parse_file_sections lines,
        ∀ e ∈ m.odds, 1/2 ≤ e.2.1 ∧ e.2.1 ≤ 69 := by
  intro n
  induction n with
  | zero =>
    intro lines hlen m hm
    rw [List.length_eq_zero.1 (Nat.le_zero.1 hlen)] at hm
    simp [parse_file_sections] at hm
  | succ n ih =>
    intro lines hlen m hm
    match lines, hm with
    | [], hm => simp [parse_file_sections] at hm
    | l :: rest, hm =>
      simp only [List.length_cons, Nat.add_le_add_iff_right] at hlen
      have hb : (rest.drop 1).length ≤ n := by
        simp only [List.length_drop]
        omega
      rw [parse_file_sections.eq_def] at hm
      dsimp only at hm
      split at hm
      · exact ih rest hlen m hm
      · split at hm
        · split at hm
          · rcases List.mem_cons.1 hm with rfl | hm
            · intro e he
              exact assembleOdds_range
                (collectSections_range _ [] [] (by simp) (by simp)) e he
            · exact ih _ hb m hm
          · exact ih _ hb m hm
        · exact ih rest hlen m hm

/-- Values collected by the flat-block odds loop passed the `[0.5, 700]`
gate. -/
theorem collectFlat_range :
    ∀ xs : List String, ∀ v ∈ (collectFlat xs).1, 1/2 ≤ v ∧ v ≤ 700 := by
  intro xs
  induction xs with
  | nil => simp [collectFlat]
  | cons x rest ih =>
    intro v hv
    simp only [collectFlat] at hv
    split at hv
    · simp at hv
    · split at hv
      · simp at hv
      · split at hv
        · split at hv
          · rename_i hr
            rcases List.mem_cons.1 hv with rfl | hv
            · exact hr
            · exact ih v hv
          · exact ih v hv
        · exact ih v hv

/-- Every odds value stored by `parse_flat_blocks` lies in `[0.5, 700]`. -/
theorem parse_flat_blocks_range (minOdds : ℕ) (tb : Bool) :
    ∀ (lines : List String), ∀ m ∈ parse_flat_blocks minOdds tb lines,
      ∀ e ∈ m.odds, 1/2 ≤ e.2.1 ∧ e.2.1 ≤ 700 := by
  intro lines
  induction lines using parse_flat_blocks.induct minOdds tb with
  | case1 => simp [parse_flat_blocks]
  | case2 l rest hcond t1 t2 hteams ih =>
    rw [parse_flat_blocks.eq_def]
    simp only [if_pos hcond]
    rw [if_pos hteams]
    exact ih
  | case3 l rest hcond t1 t2 hteams r hlen om o02 o3p ouValid hgate ih =>
    rw [parse_flat_blocks.eq_def]
    simp only [if_pos hcond]
    rw [if_neg hteams, if_pos hlen, if_pos hgate]
    intro m hm
    rcases List.mem_cons.1 hm with rfl | hm
    · intro e he
      simp only [List.mem_map] at he
      obtain ⟨p, hp, rfl⟩ := he
      exact collectFlat_range _ _ (List.of_mem_zip hp).2
    · exact ih m hm
  | case4 l rest hcond t1 t2 hteams r hlen om o02 o3p ouValid hgate ih =>
    rw [parse_flat_blocks.eq_def]
    simp only [if_pos hcond]
    rw [if_neg hteams, if_pos hlen, if_neg hgate]
    exact ih
  | case5 l rest hcond t1 t2 hteams r hlen ih =>
    rw [parse_flat_blocks.eq_def]
    simp only [if_pos hcond]
    rw [if_neg hteams, if_neg hlen]
    exact ih
  | case6 l rest hcond ih =>
    rw [parse_flat_blocks.eq_def]
    simp only [if_neg hcond]
    exact ih

/-- C4: every odds value stored in any emitted match record lies within the
active parser's configured valid range — `[0.5, 700]` for the AUTO-snapshot
parsers (`_parse_auto_snapshot_lines` and `parse_flat_blocks`), `[0.5, 69]`
for the section parser; an out-of-range numeric token is never stored
(skipped as noise, with no error). -/
theorem claim4_range_gate (lines : List String) :
    (∀ m ∈ parse_auto_snapshot_lines lines,
      ∀ e ∈ m.odds, 1/2 ≤ e.2.1 ∧ e.2.1 ≤ 700)
    ∧ (∀ (minOdds : ℕ) (tb : Bool), ∀ m ∈ parse_flat_blocks minOdds tb lines,
      ∀ e ∈ m.odds, 1/2 ≤ e.2.1 ∧ e.2.1 ≤ 700)
    ∧ (∀ m ∈ parse_file_sections lines,
      ∀ e ∈ m.odds, 1/2 ≤ e.2.1 ∧ e.2.1 ≤ 69) := by
  exact ⟨parse_auto_snapshot_range lines.length lines le_rfl,
    fun minOdds tb => parse_flat_blocks_range minOdds tb lines,
    parse_file_sections_range lines.length lines le_rfl⟩

set_option maxRecDepth 8000 in
/-- Witness for C4: a concrete AUTO-snapshot parse stores the in-range odds
2.15 for Home. -/
theorem claim4_witness : (1:ℚ)/2 ≤ 43/20 ∧ (43/20 : ℚ) ≤ 700 :=
  (claim4_range_gate
      ["sre, 20:45", "Arsenal", "Chelsea", "2.15Bet365", "---", "3.40x",
       "---", "3.90", "+1"]).1
    ⟨"Arsenal vs Chelsea",
     [("Home", 43/20, "Bet365"), ("Draw", 17/5, "x"), ("Away", 39/10, "0")]⟩
    (by with_unfolding_all decide)
    ("Home", 43/20, "Bet365") (by with_unfolding_all decide)

end SureBet
